import Mathlib

set_option linter.unusedSectionVars false

/-!
Verification of the sales-analytics pipeline.

This file gives a shallow embedding of the analytics and enrichment core of
the repository (`src/utils/data_processor.py`, `src/utils/api_handler.py`,
`src/main.py`) and proves the behavioural claims about it.

Modelling conventions:
* Python `int` is `Int`; Python `float` is modelled as `Rat` (exact
  arithmetic; the program uses floats only for currency amounts and
  ratings).
* Python dicts used as insertion-ordered accumulators are modelled as
  association lists that preserve first-encounter key order, which matches
  the insertion-order guarantee of Python 3.7+ dicts.
* A parsed transaction always carries its eight fields (this is what
  `parse_transactions` produces); Python truthiness of a field value is
  `≠ ""` for strings and `≠ 0` for numbers.
* `str.startswith` on a one-character pattern is first-character equality;
  `str.replace("P", "")` on a one-character pattern removes every
  occurrence of that character.
-/

/-- A parsed transaction record, as produced by `parse_transactions`:
the eight fields of a row of the sales file. -/
structure Transaction where
  TransactionID : String
  Date : String
  ProductID : String
  ProductName : String
  Quantity : Int
  UnitPrice : Rat
  CustomerID : String
  Region : String
deriving DecidableEq

/-- A catalog entry as stored by `create_product_mapping`: the mapped
`category`, `brand` and `rating` of an API product (each may be absent
in the API response, hence `Option`). -/
structure CatalogEntry where
  category : Option String
  brand : Option String
  rating : Option Rat
deriving DecidableEq

/-- An enriched transaction: the record built by `enrich_sales_data`,
the original transaction plus the four `API_` fields. -/
structure EnrichedTx where
  base : Transaction
  API_Category : Option String
  API_Brand : Option String
  API_Rating : Option Rat
  API_Match : Bool
deriving DecidableEq

/-! ### Decimal numerals and Python `int()` on strings -/

/-- ASCII decimal digit test (`'0'` to `'9'`). -/
def isDigitC (c : Char) : Bool := 48 ≤ c.toNat && c.toNat ≤ 57

/-- Numeric value of an ASCII digit character. -/
def digitVal (c : Char) : Nat := c.toNat - 48

/-- Value of a big-endian list of decimal digit characters. -/
def valOfDigits (ds : List Char) : Nat := ds.foldl (fun a c => 10 * a + digitVal c) 0

/-- Parse a non-empty all-digit character list as a natural number,
`none` otherwise. -/
def parseDigits? (ds : List Char) : Option Nat :=
  if ds.isEmpty then none
  else if ds.all isDigitC then some (valOfDigits ds) else none

/-- Python `int(s)` on the character list of `s`: an optional sign
followed by a non-empty digit string; anything else raises, modelled
as `none`. -/
def pyIntOfChars? (s : List Char) : Option Int :=
  match s with
  | [] => none
  | c :: rest =>
    if c = '-' then (parseDigits? rest).map (fun n => -(Int.ofNat n))
    else if c = '+' then (parseDigits? rest).map (fun n => Int.ofNat n)
    else (parseDigits? s).map (fun n => Int.ofNat n)

/-- Python `s.replace(p, "")` for a one-character pattern `p`: remove
every occurrence of the character. -/
def stripChar (p : Char) (s : List Char) : List Char := s.filter (fun c => c != p)

/-! ### Catalog enrichment (`enrich_sales_data`) -/

/-- The ID extraction of `enrich_sales_data`: strip the `'P'` characters
from `ProductID`, parse the remainder as an integer, and subtract the
fixed offset 100 (the `P101 → API ID 1` mapping). `none` models the
caught exception on a malformed `ProductID`. -/
def extractApiId? (pid : String) : Option Int :=
  (pyIntOfChars? (stripChar 'P' pid.toList)).map (fun n => n - 100)

/-- The all-null, `API_Match = False` record built on a failed lookup or
a parse failure. -/
def noMatchRecord (tx : Transaction) : EnrichedTx :=
  ⟨tx, none, none, none, false⟩

/-- Enrichment of a single transaction against the product mapping. -/
def enrichOne (mapping : Int → Option CatalogEntry) (tx : Transaction) : EnrichedTx :=
  match extractApiId? tx.ProductID with
  | some apiId =>
    match mapping apiId with
    | some e => ⟨tx, e.category, e.brand, e.rating, true⟩
    | none => noMatchRecord tx
  | none => noMatchRecord tx

/-- `enrich_sales_data`: one enriched record per input transaction, in
input order. The product mapping is the dict built by
`create_product_mapping`, used only through key lookup. -/
def enrich_sales_data : List Transaction → (Int → Option CatalogEntry) → List EnrichedTx
  | [], _ => []
  | tx :: rest, m => enrichOne m tx :: enrich_sales_data rest m

/-! ### Validation and filtering (`validate_and_filter`) -/

/-- Python `s.startswith(c)` for a one-character pattern: the first
character equals `c`. -/
def startsWithChar (s : String) (c : Char) : Bool :=
  match s.toList with
  | [] => false
  | d :: _ => d == c

/-- The required-field check of `validate_and_filter`:
`all(field in tx and tx[field] for field in required_fields)`.  All eight
keys are always present on a parsed transaction, so the check is Python
truthiness of each value: non-empty for strings, non-zero for numbers. -/
def requiredOk (tx : Transaction) : Bool :=
  decide (tx.TransactionID ≠ "") && decide (tx.Date ≠ "") && decide (tx.ProductID ≠ "") &&
  decide (tx.ProductName ≠ "") && decide (tx.Quantity ≠ 0) && decide (tx.UnitPrice ≠ 0) &&
  decide (tx.CustomerID ≠ "") && decide (tx.Region ≠ "")

/-- The business-rule check of `validate_and_filter`: the record is
rejected when `Quantity <= 0 or UnitPrice <= 0` or an ID prefix is
missing. -/
def rulesOk (tx : Transaction) : Bool :=
  !(decide (tx.Quantity ≤ 0) || decide (tx.UnitPrice ≤ 0) ||
    !startsWithChar tx.TransactionID 'T' ||
    !startsWithChar tx.ProductID 'P' ||
    !startsWithChar tx.CustomerID 'C')

/-- A transaction survives the validation loop iff it passes both checks
(each of the two `continue` branches increments `invalid_count`). -/
def isValidTx (tx : Transaction) : Bool := requiredOk tx && rulesOk tx

/-- `amount = tx["Quantity"] * tx["UnitPrice"]`. -/
def pyAmount (tx : Transaction) : Rat := (tx.Quantity : Rat) * tx.UnitPrice

/-- A validated transaction: the record with its attached `Amount`
(`tx["Amount"] = amount`). -/
structure ValidTx where
  base : Transaction
  Amount : Rat
deriving DecidableEq

/-- The record appended to `valid_transactions`. -/
def mkValid (tx : Transaction) : ValidTx := ⟨tx, pyAmount tx⟩

/-- The validation loop of `validate_and_filter`: the list of valid
transactions (in input order, each with `Amount` attached) and
`invalid_count`. -/
def validateAll : List Transaction → List ValidTx × Nat
  | [] => ([], 0)
  | tx :: rest =>
    let r := validateAll rest
    if isValidTx tx then (mkValid tx :: r.1, r.2) else (r.1, r.2 + 1)

/-- The `filter_summary` dictionary. -/
structure FilterSummary where
  total_input : Nat
  invalid : Nat
  filtered_by_region : Nat
  filtered_by_amount : Nat
  final_count : Nat
deriving DecidableEq

/-- The region filter: `if region:` is Python truthiness, so `none` and
`some ""` both skip the pass; otherwise keep exact `Region` matches. -/
def regionPass (region : Option String) (vs : List ValidTx) : List ValidTx :=
  match region with
  | some r => if r = "" then vs else vs.filter (fun v => decide (v.base.Region = r))
  | none => vs

/-- The minimum-amount filter (`if min_amount is not None:`). -/
def minPass (mn : Option Rat) (vs : List ValidTx) : List ValidTx :=
  match mn with
  | some m => vs.filter (fun v => decide (m ≤ v.Amount))
  | none => vs

/-- The maximum-amount filter (`if max_amount is not None:`). -/
def maxPass (mx : Option Rat) (vs : List ValidTx) : List ValidTx :=
  match mx with
  | some m => vs.filter (fun v => decide (v.Amount ≤ m))
  | none => vs

/-- `validate_and_filter`: validation, then the region pass, then the
two amount passes, each over the set left by the previous pass, plus the
summary counters (`before - len(...)` for each pass, 0 when a pass is
skipped). -/
def validate_and_filter (txs : List Transaction) (region : Option String)
    (min_amount max_amount : Option Rat) :
    List ValidTx × Nat × FilterSummary :=
  let v := validateAll txs
  let afterR := regionPass region v.1
  let afterMin := minPass min_amount afterR
  let afterMax := maxPass max_amount afterMin
  (afterMax, v.2,
    { total_input := txs.length
      invalid := v.2
      filtered_by_region := v.1.length - afterR.length
      filtered_by_amount :=
        (afterR.length - afterMin.length) + (afterMin.length - afterMax.length)
      final_count := afterMax.length })

/-! ### Grouped accumulation

The Python aggregation loops all follow one pattern: a dict keyed by a
group key, updated in place per record, iterated later in insertion
order.  `aggregateBy` models it as an association list in
first-encounter key order. -/

section Aggregation

variable {K V T : Type} [DecidableEq K] [AddCommMonoid V]

/-- One dict update `stats[k] += v` (inserting at the end on a new key,
as Python dicts do). -/
def upsertA : List (K × V) → K → V → List (K × V)
  | [], k, v => [(k, v)]
  | (k', v') :: rest, k, v =>
    if k' = k then (k', v' + v) :: rest else (k', v') :: upsertA rest k v

/-- One iteration of an aggregation loop. -/
def aggStep (key : T → K) (val : T → V) (acc : List (K × V)) (t : T) : List (K × V) :=
  upsertA acc (key t) (val t)

/-- The whole aggregation loop, started from the empty dict. -/
def aggregateBy (key : T → K) (val : T → V) (ts : List T) : List (K × V) :=
  ts.foldl (aggStep key val) []

/-- Dict lookup on the association list. -/
def lookupA : List (K × V) → K → Option V
  | [], _ => none
  | (k', v) :: rest, k => if k' = k then some v else lookupA rest k

/-- The keys of the input in first-encounter order. -/
def firstKeys (key : T → K) (ts : List T) : List K :=
  ts.foldl (fun acc t => if key t ∈ acc then acc else acc ++ [key t]) []

end Aggregation

/-! ### `calculate_total_revenue` and `find_peak_sales_day` -/

/-- `calculate_total_revenue`: running sum of `Quantity * UnitPrice`. -/
def calculate_total_revenue (txs : List Transaction) : Rat :=
  txs.foldl (fun acc tx => acc + pyAmount tx) 0

/-- The per-date accumulator of `find_peak_sales_day`: revenue and
transaction count per date, dates in first-encounter order. -/
def dailyTotals (txs : List Transaction) : List (String × Rat × Nat) :=
  aggregateBy (fun tx => tx.Date) (fun tx => (pyAmount tx, (1 : Nat))) txs

/-- Python `max(items, key=revenue)`: left fold keeping the first
maximum (later entries replace only on a strictly larger key). -/
def pickMax (x : String × Rat × Nat) (l : List (String × Rat × Nat)) :
    String × Rat × Nat :=
  l.foldl (fun best y => if best.2.1 < y.2.1 then y else best) x

/-- `find_peak_sales_day`: the date entry with maximal revenue; `none`
models the `ValueError` that Python's `max` raises on an empty dict. -/
def find_peak_sales_day (txs : List Transaction) : Option (String × Rat × Nat) :=
  match dailyTotals txs with
  | [] => none
  | x :: rest => some (pickMax x rest)

/-- Python's `round(x)` (banker's rounding, round-half-to-even) on an
exact rational. -/
def roundHalfEven (x : Rat) : Int :=
  let f : Int := ⌊x⌋
  if x - f < 1/2 then f
  else if (1 : Rat)/2 < x - f then f + 1
  else if f % 2 = 0 then f else f + 1

/-- Python's `round(x, 2)` on an exact rational. -/
def round2 (q : Rat) : Rat := (roundHalfEven (q * 100) : Rat) / 100

/-- The percentage computation of `region_wise_sales`:
`(sales / total) * 100 if total > 0 else 0`, then `round(·, 2)`. -/
def pctOf (total sales : Rat) : Rat :=
  round2 (if 0 < total then sales / total * 100 else 0)

/-- `region_wise_sales`: per-region totals and counts accumulated in
first-encounter order, percentage of the overall total attached, then a
stable sort by `total_sales` descending (Python's stable `sorted`).
Entry layout: `(region, total_sales, transaction_count, percentage)`. -/
def region_wise_sales (txs : List Transaction) : List (String × Rat × Nat × Rat) :=
  let stats := aggregateBy (fun tx => tx.Region) (fun tx => (pyAmount tx, (1 : Nat))) txs
  let total := txs.foldl (fun acc tx => acc + pyAmount tx) 0
  let withPct := stats.map (fun e => (e.1, e.2.1, e.2.2, pctOf total e.2.1))
  List.insertionSort (fun a b => b.2.1 ≤ a.2.1) withPct

/-- The per-product accumulator of `top_selling_products`:
`(product, total_quantity, total_revenue)` in first-encounter order. -/
def productList (txs : List Transaction) : List (String × Int × Rat) :=
  aggregateBy (fun tx => tx.ProductName) (fun tx => (tx.Quantity, pyAmount tx)) txs

/-- `top_selling_products`: stable sort by `total_quantity` descending
(Python's stable `list.sort`), then the first `n` entries. -/
def top_selling_products (txs : List Transaction) (n : Nat) : List (String × Int × Rat) :=
  (List.insertionSort (fun a b => b.2.1 ≤ a.2.1) (productList txs)).take n

/-! ### Serialization of enriched data (`save_enriched_data`, C5)

`save_enriched_data` writes 12 pipe-separated cells per record:
`str(value)` for present values and `""` for `None`.  The writer is
modelled at the row level: a written row is its list of 12 cell strings
(the `row` list the code joins with `"|"`).  Numbers are serialized in
Python's decimal form: `str(int)` and `str(float)` (for floats in the
non-scientific range, the exact decimal form with no trailing zeros and
at least one fractional digit). -/

/-- Decimal digit character of `n < 10`. -/
def digitChar : Nat → Char
  | 0 => '0' | 1 => '1' | 2 => '2' | 3 => '3' | 4 => '4'
  | 5 => '5' | 6 => '6' | 7 => '7' | 8 => '8' | _ => '9'

/-- Fuel-driven digit expansion (structural recursion so the kernel can
evaluate it; the fuel `n + 1` always suffices). -/
def natDigitsAux : Nat → Nat → List Char
  | 0, _ => []
  | fuel + 1, n =>
    if n < 10 then [digitChar n]
    else natDigitsAux fuel (n / 10) ++ [digitChar (n % 10)]

/-- The decimal digits of a natural number, `str(n)` for `n ≥ 0`. -/
def natDigits (n : Nat) : List Char := natDigitsAux (n + 1) n

/-- `str(i)` for a Python integer: optional minus sign and digits. -/
def intDigits (i : Int) : List Char :=
  if i < 0 then '-' :: natDigits i.natAbs else natDigits i.natAbs

/-- The least exponent `k ≤ d` with `d ∣ 10 ^ k`, when one exists (it
does exactly when `d` has only the prime factors 2 and 5). -/
def decExp (d : Nat) : Option Nat :=
  (List.range (d + 1)).find? (fun k => 10 ^ k % d == 0)

/-- Left-pad a digit list with zeros to width `k`. -/
def padLeft (k : Nat) (ds : List Char) : List Char :=
  List.replicate (k - ds.length) '0' ++ ds

/-- `str(float)` on an exact decimal rational: sign, integer part, `'.'`
and the fractional digits, scaled by the least sufficient power of ten
(at least one fractional digit, no trailing zeros — Python prints
`10.0`, `10.5`, `10.05`).  The fallback `[]` is unreachable for values a
float can print. -/
def ratDigits (q : Rat) : List Char :=
  match decExp q.den with
  | none => []
  | some k0 =>
    let k := max k0 1
    let m : Int := q.num * (10 : Int) ^ k / (q.den : Int)
    let M := m.natAbs
    (if m < 0 then ['-'] else []) ++
      natDigits (M / 10 ^ k) ++ '.' :: padLeft k (natDigits (M % 10 ^ k))

/-- The 12-cell row written by `save_enriched_data` for one enriched
record: `"" if value is None else str(value)` per header, in header
order. -/
def rowOf (e : EnrichedTx) : List String :=
  [e.base.TransactionID, e.base.Date, e.base.ProductID, e.base.ProductName,
   String.mk (intDigits e.base.Quantity), String.mk (ratDigits e.base.UnitPrice),
   e.base.CustomerID, e.base.Region,
   (match e.API_Category with | some s => s | none => ""),
   (match e.API_Brand with | some s => s | none => ""),
   (match e.API_Rating with | some r => String.mk (ratDigits r) | none => ""),
   (if e.API_Match then "True" else "False")]

/-- `save_enriched_data`: the data rows of the written file, one per
enriched record (the constant header line is not modelled). -/
def save_enriched_data (es : List EnrichedTx) : List (List String) := es.map rowOf

/-- Modelled from the spec: parse one decimal cell back to a rational —
optional sign, integer digits, `'.'`, fractional digits (the inverse
reading of the float serialization; no code in the repository re-parses
the enriched file). -/
def pyFloatOfChars? (s : List Char) : Option Rat :=
  match s with
  | [] => none
  | c :: rest =>
    if c = '-' then (parseFracChars? rest).map (fun v => -v)
    else if c = '+' then parseFracChars? rest
    else parseFracChars? s
where
  parseFracChars? (body : List Char) : Option Rat :=
    let ip := body.takeWhile (fun c => c != '.')
    match body.dropWhile (fun c => c != '.') with
    | '.' :: fp =>
      match parseDigits? ip, parseDigits? fp with
      | some a, some b => some ((a : Rat) + (b : Rat) / (10 : Rat) ^ fp.length)
      | _, _ => none
    | _ => none

/-- Modelled from the spec: re-parse one written 12-cell row (empty
string is null, `API_Match` textual form is a boolean, numeric columns
re-parsed as numbers, string columns taken verbatim). -/
def parseRow? (cells : List String) : Option EnrichedTx :=
  match cells with
  | [tid, date, pid, pname, q, up, cid, region, cat, brand, rating, mtch] =>
    match pyIntOfChars? q.toList, pyFloatOfChars? up.toList with
    | some qv, some upv =>
      match (if rating = "" then some none
             else (pyFloatOfChars? rating.toList).map some) with
      | some rv =>
        match (if mtch = "True" then some true
               else if mtch = "False" then some false else none) with
        | some mv =>
          some ⟨⟨tid, date, pid, pname, qv, upv, cid, region⟩,
                (if cat = "" then none else some cat),
                (if brand = "" then none else some brand),
                rv, mv⟩
        | none => none
      | none => none
    | _, _ => none
  | _ => none

/-- Modelled from the spec: re-parse all written rows. -/
def parseRows? : List (List String) → Option (List EnrichedTx)
  | [] => some []
  | r :: rs =>
    match parseRow? r, parseRows? rs with
    | some e, some es => some (e :: es)
    | _, _ => none

/-- Well-formedness of an enriched record for the round trip: nullable
string fields are null or non-empty (an empty-string category or brand
serializes exactly like null), and the numeric fields are decimally
representable (as every value printed by Python's float `str` is). -/
def roundTripSafe (e : EnrichedTx) : Bool :=
  (e.API_Category != some "") && (e.API_Brand != some "") &&
  (decExp e.base.UnitPrice.den).isSome &&
  (match e.API_Rating with | none => true | some r => (decExp r.den).isSome)

/-- A two-transaction input on two dates (both with revenue 50), used to
exercise the peak-day theorem. -/
def c4txs : List Transaction :=
  [⟨"T1", "2024-01-02", "P101", "W", 5, 10, "C1", "N"⟩,
   ⟨"T2", "2024-01-01", "P102", "W", 1, 50, "C2", "N"⟩]

/-- Two transactions for the same product, used to exercise the
top-products theorem. -/
def c7txs : List Transaction :=
  [⟨"T1", "2024-01-01", "P101", "W", 5, 10, "C1", "N"⟩,
   ⟨"T2", "2024-01-01", "P101", "W", 1, 10, "C2", "N"⟩]

/-! ### Proofs -/

section Aggregation

variable {K V T : Type} [DecidableEq K] [AddCommMonoid V]

theorem lookupA_upsertA_self (l : List (K × V)) (k : K) (v : V) :
    lookupA (upsertA l k v) k = some ((lookupA l k).elim v (fun w => w + v)) := by
  induction l with
  | nil => simp [upsertA, lookupA]
  | cons p rest ih =>
    obtain ⟨k', v'⟩ := p
    by_cases h : k' = k
    · subst h; simp [upsertA, lookupA]
    · simp [upsertA, lookupA, h, ih]

theorem lookupA_upsertA_other (l : List (K × V)) {k k' : K} (h : k' ≠ k) (v : V) :
    lookupA (upsertA l k v) k' = lookupA l k' := by
  induction l with
  | nil => simp [upsertA, lookupA, if_neg (Ne.symm h)]
  | cons p rest ih =>
    obtain ⟨k'', v''⟩ := p
    by_cases hh : k'' = k
    · subst hh
      simp [upsertA, lookupA, if_neg (Ne.symm h)]
    · simp only [upsertA, if_neg hh, lookupA]
      by_cases h3 : k'' = k'
      · simp [h3]
      · simp [h3, ih]

theorem lookupA_isSome_iff (l : List (K × V)) (k : K) :
    (lookupA l k).isSome = true ↔ k ∈ l.map Prod.fst := by
  induction l with
  | nil => simp [lookupA]
  | cons p rest ih =>
    obtain ⟨k', v'⟩ := p
    by_cases h : k' = k
    · subst h; simp [lookupA]
    · simp only [lookupA, if_neg h, List.map_cons, List.mem_cons, ih]
      constructor
      · intro hm; exact Or.inr hm
      · intro hm
        rcases hm with hm | hm
        · exact absurd hm.symm h
        · exact hm

theorem map_fst_upsertA (l : List (K × V)) (k : K) (v : V) :
    (upsertA l k v).map Prod.fst =
      if k ∈ l.map Prod.fst then l.map Prod.fst else l.map Prod.fst ++ [k] := by
  induction l with
  | nil => simp [upsertA]
  | cons p rest ih =>
    obtain ⟨k', v'⟩ := p
    by_cases h : k' = k
    · subst h; simp [upsertA]
    · have hne : ¬(k = k') := Ne.symm h
      simp only [upsertA, if_neg h, List.map_cons, List.mem_cons, ih]
      by_cases h2 : k ∈ rest.map Prod.fst
      · simp [h2, hne]
      · simp [h2, hne]

theorem nodup_fst_upsertA (l : List (K × V)) (k : K) (v : V)
    (h : (l.map Prod.fst).Nodup) : ((upsertA l k v).map Prod.fst).Nodup := by
  rw [map_fst_upsertA]
  by_cases h2 : k ∈ l.map Prod.fst
  · simpa [h2]
  · simpa [h2] using List.Nodup.append h (List.nodup_singleton k) (by simpa using h2)

theorem upsertA_ne_nil (l : List (K × V)) (k : K) (v : V) : upsertA l k v ≠ [] := by
  cases l with
  | nil => simp [upsertA]
  | cons p rest =>
    obtain ⟨k', v'⟩ := p
    by_cases h : k' = k <;> simp [upsertA, h]

theorem sum_snd_upsertA (l : List (K × V)) (k : K) (v : V) :
    ((upsertA l k v).map Prod.snd).sum = (l.map Prod.snd).sum + v := by
  induction l with
  | nil => simp [upsertA]
  | cons p rest ih =>
    obtain ⟨k', v'⟩ := p
    by_cases h : k' = k
    · subst h; simp [upsertA, add_assoc, add_comm]
    · simp only [upsertA, if_neg h, List.map_cons, List.sum_cons, ih]
      rw [add_assoc]

theorem lookupA_foldl_agg (key : T → K) (val : T → V) :
    ∀ (ts : List T) (acc : List (K × V)) (k : K),
      lookupA (ts.foldl (aggStep key val) acc) k =
        match lookupA acc k with
        | some w => some (w + ((ts.filter (fun t => decide (key t = k))).map val).sum)
        | none =>
          if (ts.filter (fun t => decide (key t = k))).isEmpty then none
          else some (((ts.filter (fun t => decide (key t = k))).map val).sum) := by
  intro ts
  induction ts with
  | nil =>
    intro acc k
    cases h : lookupA acc k <;> simp [h, List.filter]
  | cons t ts ih =>
    intro acc k
    rw [List.foldl_cons]
    by_cases hk : key t = k
    · have hfil : (t :: ts).filter (fun t => decide (key t = k)) =
          t :: ts.filter (fun t => decide (key t = k)) := by
        simp [List.filter_cons, hk]
      rw [ih (aggStep key val acc t) k]
      have hup : lookupA (aggStep key val acc t) k =
          some ((lookupA acc k).elim (val t) (fun w => w + val t)) := by
        simpa [aggStep, hk] using lookupA_upsertA_self acc (key t) (val t)
      rw [hup]
      cases h : lookupA acc k with
      | none => simp [h, hfil]
      | some w => simp [h, hfil, add_assoc]
    · have hfil : (t :: ts).filter (fun t => decide (key t = k)) =
          ts.filter (fun t => decide (key t = k)) := by
        simp [List.filter_cons, hk]
      rw [ih (aggStep key val acc t) k]
      have hup : lookupA (aggStep key val acc t) k = lookupA acc k := by
        have : k ≠ key t := fun hh => hk hh.symm
        simpa [aggStep] using lookupA_upsertA_other acc this (val t)
      rw [hup, hfil]

theorem lookupA_aggregateBy (key : T → K) (val : T → V) (ts : List T) (k : K) :
    lookupA (aggregateBy key val ts) k =
      if (ts.filter (fun t => decide (key t = k))).isEmpty then none
      else some (((ts.filter (fun t => decide (key t = k))).map val).sum) := by
  rw [aggregateBy, lookupA_foldl_agg key val ts [] k]
  simp [lookupA]

theorem map_fst_foldl_agg (key : T → K) (val : T → V) :
    ∀ (ts : List T) (acc : List (K × V)),
      (ts.foldl (aggStep key val) acc).map Prod.fst =
        ts.foldl (fun ks t => if key t ∈ ks then ks else ks ++ [key t])
          (acc.map Prod.fst) := by
  intro ts
  induction ts with
  | nil => intro acc; rfl
  | cons t ts ih =>
    intro acc
    rw [List.foldl_cons, List.foldl_cons, ih]
    congr 1
    simpa [aggStep] using map_fst_upsertA acc (key t) (val t)

theorem map_fst_aggregateBy (key : T → K) (val : T → V) (ts : List T) :
    (aggregateBy key val ts).map Prod.fst = firstKeys key ts := by
  rw [aggregateBy, map_fst_foldl_agg key val ts [], firstKeys]
  rfl

theorem nodup_fst_aggregateBy (key : T → K) (val : T → V) (ts : List T) :
    ((aggregateBy key val ts).map Prod.fst).Nodup := by
  rw [aggregateBy]
  have h : ∀ (ts : List T) (acc : List (K × V)), (acc.map Prod.fst).Nodup →
      ((ts.foldl (aggStep key val) acc).map Prod.fst).Nodup := by
    intro ts
    induction ts with
    | nil => intro acc h; simpa using h
    | cons t ts ih =>
      intro acc hacc
      rw [List.foldl_cons]
      exact ih _ (nodup_fst_upsertA acc (key t) (val t) hacc)
  exact h ts [] (by simp)

theorem lookupA_eq_of_mem (l : List (K × V)) (hl : (l.map Prod.fst).Nodup)
    {k : K} {v : V} (hm : (k, v) ∈ l) : lookupA l k = some v := by
  induction l with
  | nil => simp at hm
  | cons p rest ih =>
    obtain ⟨k', v'⟩ := p
    simp only [List.map_cons, List.nodup_cons] at hl
    rcases List.mem_cons.mp hm with h | h
    · obtain ⟨hk, hv⟩ := Prod.mk.injEq .. ▸ h
      injection h with h1 h2
      subst h1; subst h2
      simp [lookupA]
    · by_cases hkk : k' = k
      · subst hkk
        exact absurd (List.mem_map_of_mem Prod.fst h) hl.1
      · simp only [lookupA, if_neg hkk]
        exact ih hl.2 h

theorem sum_snd_aggregateBy (key : T → K) (val : T → V) (ts : List T) :
    ((aggregateBy key val ts).map Prod.snd).sum = (ts.map val).sum := by
  rw [aggregateBy]
  have h : ∀ (ts : List T) (acc : List (K × V)),
      ((ts.foldl (aggStep key val) acc).map Prod.snd).sum =
        (acc.map Prod.snd).sum + (ts.map val).sum := by
    intro ts
    induction ts with
    | nil => intro acc; simp
    | cons t ts ih =>
      intro acc
      rw [List.foldl_cons, ih]
      simp only [aggStep, sum_snd_upsertA, List.map_cons, List.sum_cons]
      rw [add_assoc, add_comm (val t)]
  simpa using h ts []

theorem aggregateBy_ne_nil (key : T → K) (val : T → V) {ts : List T} (h : ts ≠ []) :
    aggregateBy key val ts ≠ [] := by
  have hstep : ∀ (ts : List T) (acc : List (K × V)), acc ≠ [] →
      ts.foldl (aggStep key val) acc ≠ [] := by
    intro ts
    induction ts with
    | nil => intro acc hacc; simpa using hacc
    | cons t ts ih =>
      intro acc hacc
      rw [List.foldl_cons]
      exact ih _ (upsertA_ne_nil acc (key t) (val t))
  cases ts with
  | nil => exact absurd rfl h
  | cons t ts =>
    rw [aggregateBy, List.foldl_cons]
    exact hstep ts _ (upsertA_ne_nil [] (key t) (val t))

end Aggregation

/-- Componentwise sum of a list of pairs. -/
theorem sum_map_pair {T A B : Type} [AddCommMonoid A] [AddCommMonoid B]
    (f : T → A) (g : T → B) (l : List T) :
    (l.map (fun t => (f t, g t))).sum = ((l.map f).sum, (l.map g).sum) := by
  induction l with
  | nil => simp
  | cons t l ih => simp [ih, Prod.mk_add_mk]

/-- Summing the constant 1 counts the list. -/
theorem sum_map_one {T : Type} (l : List T) :
    (l.map (fun _ => (1 : Nat))).sum = l.length := by
  induction l with
  | nil => rfl
  | cons t l ih => simp [ih]; omega

theorem sum_fst {A B : Type} [AddCommMonoid A] [AddCommMonoid B] (l : List (A × B)) :
    l.sum.1 = (l.map Prod.fst).sum := by
  induction l with
  | nil => rfl
  | cons p l ih => simp [ih]

theorem calculate_total_revenue_eq_sum (txs : List Transaction) :
    calculate_total_revenue txs = (txs.map pyAmount).sum := by
  have h : ∀ (l : List Transaction) (a : Rat),
      l.foldl (fun acc tx => acc + pyAmount tx) a = a + (l.map pyAmount).sum := by
    intro l
    induction l with
    | nil => intro a; simp
    | cons t l ih => intro a; simp [ih, add_assoc]
  simpa using h txs 0

theorem abs_roundHalfEven_sub (x : Rat) :
    |((roundHalfEven x : Int) : Rat) - x| ≤ 1 / 2 := by
  have h0 : ((⌊x⌋ : Int) : Rat) ≤ x := Int.floor_le x
  have h1 : x < (⌊x⌋ : Int) + 1 := Int.lt_floor_add_one x
  rw [roundHalfEven]
  split_ifs with hc1 hc2 hc3
  · rw [abs_le]
    constructor <;> linarith
  · rw [abs_le]
    push_cast
    constructor <;> linarith
  · have ha : x - (⌊x⌋ : Rat) ≥ 1 / 2 := not_lt.mp hc1
    have hb : x - (⌊x⌋ : Rat) ≤ 1 / 2 := not_lt.mp hc2
    rw [abs_le]
    constructor <;> linarith
  · have ha : x - (⌊x⌋ : Rat) ≥ 1 / 2 := not_lt.mp hc1
    have hb : x - (⌊x⌋ : Rat) ≤ 1 / 2 := not_lt.mp hc2
    rw [abs_le]
    push_cast
    constructor <;> linarith

theorem abs_round2_sub (q : Rat) : |round2 q - q| ≤ 1 / 200 := by
  have h := abs_roundHalfEven_sub (q * 100)
  rw [round2]
  have heq : (roundHalfEven (q * 100) : Rat) / 100 - q =
      ((roundHalfEven (q * 100) : Rat) - q * 100) / 100 := by ring
  rw [heq, abs_div, abs_of_pos (show (0 : Rat) < 100 by norm_num)]
  rw [div_le_iff₀ (show (0 : Rat) < 100 by norm_num)]
  calc |(roundHalfEven (q * 100) : Rat) - q * 100| ≤ 1 / 2 := h
    _ = 1 / 200 * 100 := by norm_num

theorem roundHalfEven_zero : roundHalfEven 0 = 0 := by
  rw [roundHalfEven]
  norm_num

theorem round2_zero : round2 0 = 0 := by
  rw [round2, zero_mul, roundHalfEven_zero]
  norm_num

theorem sum_round2_bound : ∀ l : List Rat,
    |(l.map round2).sum - l.sum| ≤ (l.length : Rat) * (1 / 200) := by
  intro l
  induction l with
  | nil => simp
  | cons a l ih =>
    simp only [List.map_cons, List.sum_cons, List.length_cons]
    have h1 := abs_round2_sub a
    have hstep : round2 a + (l.map round2).sum - (a + l.sum) =
        (round2 a - a) + ((l.map round2).sum - l.sum) := by ring
    rw [hstep]
    calc |(round2 a - a) + ((l.map round2).sum - l.sum)|
        ≤ |round2 a - a| + |(l.map round2).sum - l.sum| := abs_add _ _
      _ ≤ 1 / 200 + (l.length : Rat) * (1 / 200) := add_le_add h1 ih
      _ = ((l.length : Nat) + 1 : Rat) * (1 / 200) := by ring
      _ = (((l.length + 1 : Nat)) : Rat) * (1 / 200) := by push_cast; ring

/-! Stability of `insertionSort` with a reflexive-on-ties relation: the
elements of any one key class keep their relative order, stated as
preservation of `filter` by the sort. -/

theorem filter_orderedInsert_neg {α : Type} (r : α → α → Prop) [DecidableRel r]
    (p : α → Bool) (x : α) (hpx : p x = false) :
    ∀ l : List α, (List.orderedInsert r x l).filter p = l.filter p := by
  intro l
  induction l with
  | nil => simp [List.orderedInsert, List.filter, hpx]
  | cons y ys ih =>
    rw [List.orderedInsert]
    by_cases hr : r x y
    · rw [if_pos hr, List.filter_cons, hpx]
      simp
    · rw [if_neg hr, List.filter_cons, List.filter_cons, ih]

theorem filter_orderedInsert_pos {α : Type} (r : α → α → Prop) [DecidableRel r]
    (p : α → Bool) (x : α) (hpx : p x = true)
    (hcomp : ∀ y, ¬ r x y → p y = false) :
    ∀ l : List α, (List.orderedInsert r x l).filter p = x :: l.filter p := by
  intro l
  induction l with
  | nil => simp [List.orderedInsert, List.filter, hpx]
  | cons y ys ih =>
    rw [List.orderedInsert]
    by_cases hr : r x y
    · rw [if_pos hr, List.filter_cons, hpx]
      simp
    · rw [if_neg hr, List.filter_cons, hcomp y hr, List.filter_cons, hcomp y hr, ih]
      simp

theorem filter_insertionSort {α : Type} (r : α → α → Prop) [DecidableRel r]
    (p : α → Bool) (hcomp : ∀ x y, p x = true → ¬ r x y → p y = false) :
    ∀ l : List α, (List.insertionSort r l).filter p = l.filter p := by
  intro l
  induction l with
  | nil => rfl
  | cons x l ih =>
    rw [List.insertionSort, List.filter_cons]
    cases hpx : p x with
    | true =>
      rw [filter_orderedInsert_pos r p x hpx (fun y hy => hcomp x y hpx hy), ih]
      simp
    | false =>
      rw [filter_orderedInsert_neg r p x hpx, ih]
      simp

theorem pickMax_spec :
    ∀ (l : List (String × Rat × Nat)) (x : String × Rat × Nat),
      ∃ pre post,
        x :: l = pre ++ pickMax x l :: post
        ∧ (∀ e ∈ x :: l, e.2.1 ≤ (pickMax x l).2.1)
        ∧ (∀ e ∈ pre, e.2.1 < (pickMax x l).2.1) := by
  intro l
  induction l with
  | nil =>
    intro x
    exact ⟨[], [], rfl, by simp [pickMax], by simp⟩
  | cons y t ih =>
    intro x
    have hfold : pickMax x (y :: t) = pickMax (if x.2.1 < y.2.1 then y else x) t := rfl
    by_cases hxy : x.2.1 < y.2.1
    · obtain ⟨pre, post, hdec, hub, hlt⟩ := ih y
      rw [if_pos hxy] at hfold
      refine ⟨x :: pre, post, ?_, ?_, ?_⟩
      · rw [hfold, List.cons_append, ← hdec]
      · intro e he
        rw [hfold]
        rcases List.mem_cons.mp he with he | he
        · subst he
          exact le_of_lt (lt_of_lt_of_le hxy (hub y (List.mem_cons_self y t)))
        · exact hub e he
      · intro e he
        rw [hfold]
        rcases List.mem_cons.mp he with he | he
        · subst he
          exact lt_of_lt_of_le hxy (hub y (List.mem_cons_self y t))
        · exact hlt e he
    · obtain ⟨pre, post, hdec, hub, hlt⟩ := ih x
      rw [if_neg hxy] at hfold
      have hyx : y.2.1 ≤ x.2.1 := le_of_not_lt hxy
      cases pre with
      | nil =>
        simp only [List.nil_append] at hdec
        have hx : pickMax x t = x := ((List.cons.injEq ..).mp hdec).1.symm
        refine ⟨[], y :: t, ?_, ?_, ?_⟩
        · rw [hfold, hx, List.nil_append]
        · intro e he
          rw [hfold, hx]
          rcases List.mem_cons.mp he with he | he
          · subst he; exact le_refl _
          · rcases List.mem_cons.mp he with he | he
            · subst he; exact hyx
            · have := hub e (List.mem_cons_of_mem x he)
              rw [hx] at this
              exact this
        · intro e he; simp at he
      | cons p pre' =>
        simp only [List.cons_append] at hdec
        have hp : x = p := ((List.cons.injEq ..).mp hdec).1
        have ht : t = pre' ++ pickMax x t :: post := ((List.cons.injEq ..).mp hdec).2
        refine ⟨x :: y :: pre', post, ?_, ?_, ?_⟩
        · rw [hfold, List.cons_append, List.cons_append, ← ht]
        · intro e he
          rw [hfold]
          rcases List.mem_cons.mp he with he | he
          · subst he; exact hub _ (List.mem_cons_self _ _)
          · rcases List.mem_cons.mp he with he | he
            · subst he
              exact le_trans hyx (hub _ (List.mem_cons_self _ _))
            · exact hub e (List.mem_cons_of_mem _ he)
        · intro e he
          rw [hfold]
          rcases List.mem_cons.mp he with he | he
          · subst he
            exact hp ▸ hlt p (List.mem_cons_self p pre')
          · rcases List.mem_cons.mp he with he | he
            · subst he
              exact lt_of_le_of_lt hyx (hp ▸ hlt p (List.mem_cons_self p pre'))
            · exact hlt e (List.mem_cons_of_mem p he)

/-! ### Validation lemmas -/

theorem validateAll_fst (txs : List Transaction) :
    (validateAll txs).1 = (txs.filter isValidTx).map mkValid := by
  induction txs with
  | nil => rfl
  | cons tx rest ih =>
    rw [validateAll, List.filter_cons]
    cases h : isValidTx tx with
    | true => simp [h, ih]
    | false => simp [h, ih]

theorem validateAll_snd (txs : List Transaction) :
    (validateAll txs).2 = txs.countP (fun tx => !isValidTx tx) := by
  induction txs with
  | nil => rfl
  | cons tx rest ih =>
    rw [validateAll, List.countP_cons]
    cases h : isValidTx tx with
    | true => simp [h, ih]
    | false => simp [h, ih]

theorem validateAll_len (txs : List Transaction) :
    (validateAll txs).1.length + (validateAll txs).2 = txs.length := by
  induction txs with
  | nil => rfl
  | cons tx rest ih =>
    rw [validateAll]
    cases h : isValidTx tx with
    | true => simp only [h, if_true, List.length_cons]; omega
    | false => simp only [h, if_false, Bool.false_eq_true, List.length_cons]; omega

theorem isValidTx_iff (tx : Transaction) :
    isValidTx tx = true ↔
      (tx.TransactionID ≠ "" ∧ tx.Date ≠ "" ∧ tx.ProductID ≠ "" ∧ tx.ProductName ≠ "" ∧
       tx.CustomerID ≠ "" ∧ tx.Region ≠ "" ∧ 0 < tx.Quantity ∧ 0 < tx.UnitPrice ∧
       startsWithChar tx.TransactionID 'T' = true ∧ startsWithChar tx.ProductID 'P' = true ∧
       startsWithChar tx.CustomerID 'C' = true) := by
  simp only [isValidTx, requiredOk, rulesOk, Bool.and_eq_true, decide_eq_true_eq,
    Bool.not_eq_true', Bool.or_eq_false_iff, decide_eq_false_iff_not, not_le,
    Bool.not_eq_false, Bool.not_eq_false']
  constructor
  · intro h
    obtain ⟨⟨⟨⟨⟨⟨⟨⟨h1, h2⟩, h3⟩, h4⟩, h5⟩, h6⟩, h7⟩, h8⟩, hrules⟩ := h
    obtain ⟨⟨⟨⟨hq, hup⟩, ht⟩, hp⟩, hc⟩ := hrules
    exact ⟨h1, h2, h3, h4, h7, h8, hq, hup, ht, hp, hc⟩
  · rintro ⟨h1, h2, h3, h4, h7, h8, hq, hup, ht, hp, hc⟩
    exact ⟨⟨⟨⟨⟨⟨⟨⟨h1, h2⟩, h3⟩, h4⟩, ne_of_gt hq⟩, ne_of_gt hup⟩, h7⟩, h8⟩,
      ⟨⟨⟨⟨hq, hup⟩, ht⟩, hp⟩, hc⟩⟩

/-! ### Enrichment claims (C1, C8, C9) -/

theorem isDigitC_ne {c : Char} (h : isDigitC c = true) :
    c ≠ 'P' ∧ c ≠ '-' ∧ c ≠ '+' := by
  refine ⟨?_, ?_, ?_⟩ <;> intro hc <;> rw [hc] at h <;> exact absurd h (by decide)

theorem stripChar_P_digits (ds : List Char) (hdig : ∀ c ∈ ds, isDigitC c = true) :
    stripChar 'P' ('P' :: ds) = ds := by
  rw [stripChar, List.filter_cons]
  have h1 : ('P' != 'P') = false := by decide
  rw [h1]
  simp only [Bool.false_eq_true, if_false]
  apply List.filter_eq_self.mpr
  intro c hc
  exact bne_iff_ne.mpr (isDigitC_ne (hdig c hc)).1

theorem pyIntOfChars_digits (ds : List Char) (hne : ds ≠ [])
    (hdig : ∀ c ∈ ds, isDigitC c = true) :
    pyIntOfChars? ds = some ((valOfDigits ds : Int)) := by
  cases ds with
  | nil => exact absurd rfl hne
  | cons c rest =>
    have hc := hdig c (List.mem_cons_self c rest)
    obtain ⟨-, hc1, hc2⟩ := isDigitC_ne hc
    rw [pyIntOfChars?, if_neg hc1, if_neg hc2, parseDigits?]
    have hemp : (c :: rest).isEmpty = false := rfl
    have hall : (c :: rest).all isDigitC = true :=
      List.all_eq_true.mpr (fun x hx => hdig x hx)
    rw [hemp, hall]
    rfl

theorem enrichOne_base (m : Int → Option CatalogEntry) (tx : Transaction) :
    (enrichOne m tx).base = tx := by
  rw [enrichOne]
  split
  · split
    · rfl
    · rfl
  · rfl

/-- The per-region sales of the aggregation sum to the overall total. -/
theorem region_sales_total (txs : List Transaction) :
    ((aggregateBy (fun tx => tx.Region) (fun tx => (pyAmount tx, (1 : Nat))) txs).map
      (fun e => e.2.1)).sum = (txs.map pyAmount).sum := by
  have h := sum_snd_aggregateBy (fun tx => tx.Region)
    (fun tx => (pyAmount tx, (1 : Nat))) txs
  have h1 := congrArg Prod.fst h
  rw [sum_fst, sum_map_pair] at h1
  simpa [List.map_map, Function.comp] using h1

theorem region_wise_sales_eq (txs : List Transaction) :
    region_wise_sales txs =
      List.insertionSort (fun a b => b.2.1 ≤ a.2.1)
        ((aggregateBy (fun tx => tx.Region) (fun tx => (pyAmount tx, (1 : Nat))) txs).map
          (fun e => (e.1, e.2.1, e.2.2, pctOf (calculate_total_revenue txs) e.2.1))) := rfl

/-! ### Decimal round-trip lemmas -/

theorem digitChar_val {n : Nat} (h : n < 10) :
    digitVal (digitChar n) = n ∧ isDigitC (digitChar n) = true := by
  interval_cases n <;> exact ⟨by decide, by decide⟩

theorem natDigitsAux_spec : ∀ fuel n : Nat, n < fuel →
    valOfDigits (natDigitsAux fuel n) = n
    ∧ natDigitsAux fuel n ≠ []
    ∧ (∀ c ∈ natDigitsAux fuel n, isDigitC c = true) := by
  intro fuel
  induction fuel with
  | zero => intro n h; omega
  | succ f ih =>
    intro n h
    rw [natDigitsAux]
    by_cases h10 : n < 10
    · rw [if_pos h10]
      refine ⟨?_, by simp, ?_⟩
      · have hd := (digitChar_val h10).1
        show List.foldl (fun a c => 10 * a + digitVal c) 0 [digitChar n] = n
        rw [List.foldl_cons, List.foldl_nil]
        omega
      · intro c hc
        rw [List.mem_singleton] at hc
        subst hc
        exact (digitChar_val h10).2
    · rw [if_neg h10]
      have hn10 : n / 10 < f := by omega
      obtain ⟨hval, hne, hdig⟩ := ih (n / 10) hn10
      have hmod : n % 10 < 10 := Nat.mod_lt n (by norm_num)
      refine ⟨?_, by simp, ?_⟩
      · have happ : valOfDigits (natDigitsAux f (n / 10) ++ [digitChar (n % 10)]) =
            10 * valOfDigits (natDigitsAux f (n / 10)) + digitVal (digitChar (n % 10)) := by
          rw [valOfDigits, valOfDigits, List.foldl_append]
          rfl
        rw [happ, hval, (digitChar_val hmod).1]
        omega
      · intro c hc
        rcases List.mem_append.mp hc with hc | hc
        · exact hdig c hc
        · rw [List.mem_singleton] at hc
          subst hc
          exact (digitChar_val hmod).2

theorem natDigits_spec (n : Nat) :
    valOfDigits (natDigits n) = n
    ∧ natDigits n ≠ []
    ∧ (∀ c ∈ natDigits n, isDigitC c = true) :=
  natDigitsAux_spec (n + 1) n (Nat.lt_succ_self n)

theorem parseDigits_of_digits (ds : List Char) (hne : ds ≠ [])
    (hdig : ∀ c ∈ ds, isDigitC c = true) :
    parseDigits? ds = some (valOfDigits ds) := by
  cases ds with
  | nil => exact absurd rfl hne
  | cons c cs =>
    rw [parseDigits?]
    have hemp : (c :: cs).isEmpty = false := rfl
    have hall : (c :: cs).all isDigitC = true := List.all_eq_true.mpr hdig
    rw [hemp, hall]
    rfl

theorem parseDigits_natDigits (n : Nat) : parseDigits? (natDigits n) = some n := by
  obtain ⟨hval, hne, hdig⟩ := natDigits_spec n
  rw [parseDigits_of_digits (natDigits n) hne hdig, hval]

theorem pyInt_intDigits (i : Int) : pyIntOfChars? (intDigits i) = some i := by
  rw [intDigits]
  by_cases hneg : i < 0
  · rw [if_pos hneg, pyIntOfChars?, if_pos rfl, parseDigits_natDigits]
    simp only [Option.map_some', Int.ofNat_eq_natCast]
    congr 1
    omega
  · rw [if_neg hneg]
    obtain ⟨hval, hne, hdig⟩ := natDigits_spec i.natAbs
    cases hl : natDigits i.natAbs with
    | nil => exact absurd hl hne
    | cons c cs =>
      rw [hl] at hdig
      have hc := hdig c (List.mem_cons_self c cs)
      obtain ⟨-, hc1, hc2⟩ := isDigitC_ne hc
      rw [pyIntOfChars?, if_neg hc1, if_neg hc2, ← hl, parseDigits_natDigits]
      simp only [Option.map_some', Int.ofNat_eq_natCast]
      congr 1
      omega

theorem natDigitsAux_length : ∀ fuel n k : Nat, n < fuel → n < 10 ^ k → 1 ≤ k →
    (natDigitsAux fuel n).length ≤ k := by
  intro fuel
  induction fuel with
  | zero => intro n k h; omega
  | succ f ih =>
    intro n k h hnk hk
    rw [natDigitsAux]
    by_cases h10 : n < 10
    · rw [if_pos h10]
      simpa using hk
    · rw [if_neg h10]
      rw [List.length_append]
      have hk2 : 2 ≤ k := by
        by_contra hcon
        have hkeq : k = 1 := by omega
        rw [hkeq, pow_one] at hnk
        omega
      have hpow : 10 ^ k = 10 * 10 ^ (k - 1) := by
        conv_lhs => rw [show k = (k - 1) + 1 by omega]
        rw [pow_succ]
        ring
      have hdiv : n / 10 < 10 ^ (k - 1) := by
        rw [Nat.div_lt_iff_lt_mul (by norm_num)]
        omega
      have hf : n / 10 < f := by omega
      have hlen := ih (n / 10) (k - 1) hf hdiv (by omega)
      simp only [List.length_cons, List.length_nil]
      omega

theorem natDigits_length {n k : Nat} (hnk : n < 10 ^ k) (hk : 1 ≤ k) :
    (natDigits n).length ≤ k :=
  natDigitsAux_length (n + 1) n k (Nat.lt_succ_self n) hnk hk

theorem valOfDigits_replicate_zero (j : Nat) (ds : List Char) :
    valOfDigits (List.replicate j '0' ++ ds) = valOfDigits ds := by
  induction j with
  | zero => rw [List.replicate_zero, List.nil_append]
  | succ j ih =>
    rw [List.replicate_succ, List.cons_append, valOfDigits, List.foldl_cons]
    have h0 : (10 * 0 + digitVal '0') = 0 := by decide
    rw [h0]
    exact ih

theorem decExp_dvd {d k : Nat} (h : decExp d = some k) : d ∣ 10 ^ k := by
  have hp := List.find?_some h
  exact Nat.dvd_of_mod_eq_zero (by simpa using hp)

theorem isDigitC_ne_dot {c : Char} (h : isDigitC c = true) : (c != '.') = true := by
  refine bne_iff_ne.mpr ?_
  intro hc
  rw [hc] at h
  exact absurd h (by decide)

theorem takeWhile_dot_append (l1 l2 : List Char) (h : ∀ c ∈ l1, (c != '.') = true) :
    (l1 ++ '.' :: l2).takeWhile (fun c => c != '.') = l1
    ∧ (l1 ++ '.' :: l2).dropWhile (fun c => c != '.') = '.' :: l2 := by
  induction l1 with
  | nil =>
    constructor
    · rw [List.nil_append, List.takeWhile_cons]
      norm_num
    · rw [List.nil_append, List.dropWhile_cons]
      norm_num
  | cons c cs ih =>
    have hc := h c (List.mem_cons_self c cs)
    obtain ⟨ih1, ih2⟩ := ih (fun x hx => h x (List.mem_cons_of_mem c hx))
    constructor
    · rw [List.cons_append, List.takeWhile_cons, hc]
      simp only [if_true, ih1]
    · rw [List.cons_append, List.dropWhile_cons, hc]
      simp only [if_true, ih2]

theorem pyFloat_ratDigits (q : Rat) (h : (decExp q.den).isSome = true) :
    pyFloatOfChars? (ratDigits q) = some q := by
  obtain ⟨k0, hk0⟩ := Option.isSome_iff_exists.mp h
  have hdvd0 : q.den ∣ 10 ^ k0 := decExp_dvd hk0
  have hk1 : 1 ≤ max k0 1 := le_max_right k0 1
  have hdvd : q.den ∣ 10 ^ max k0 1 := hdvd0.trans (pow_dvd_pow 10 (le_max_left k0 1))
  set k := max k0 1 with hkdef
  set m : Int := q.num * (10 : Int) ^ k / (q.den : Int) with hmdef
  set M := m.natAbs with hMdef
  set A := M / 10 ^ k with hAdef
  set B := M % 10 ^ k with hBdef
  set P := padLeft k (natDigits B) with hPdef
  have hrd : ratDigits q =
      (if m < 0 then ['-'] else []) ++ natDigits A ++ '.' :: P := by
    rw [ratDigits, hk0]
  have hdvdI : ((q.den : Int)) ∣ q.num * (10 : Int) ^ k :=
    Dvd.dvd.mul_left (by exact_mod_cast Int.natCast_dvd_natCast.mpr hdvd) q.num
  have hexact : m * (q.den : Int) = q.num * (10 : Int) ^ k := Int.ediv_mul_cancel hdvdI
  have hdenR : ((q.den : Rat)) ≠ 0 := by
    exact_mod_cast q.den_nz
  have hvalq : (m : Rat) = q * 10 ^ k := by
    have hcast : (m : Rat) * (q.den : Rat) = (q.num : Rat) * (10 : Rat) ^ k := by
      exact_mod_cast congrArg (fun z : Int => (z : Rat)) hexact
    have hq : q * (q.den : Rat) = (q.num : Rat) := Rat.mul_den_eq_num q
    apply mul_right_cancel₀ hdenR
    rw [hcast, ← hq]
    ring
  have hB10 : B < 10 ^ k := Nat.mod_lt _ (by positivity)
  obtain ⟨hvalB, hneB, hdigB⟩ := natDigits_spec B
  obtain ⟨hvalA, hneA, hdigA⟩ := natDigits_spec A
  have hlenB : (natDigits B).length ≤ k := natDigits_length hB10 hk1
  have hlenP : P.length = k := by
    rw [hPdef, padLeft, List.length_append, List.length_replicate]
    omega
  have hdigP : ∀ c ∈ P, isDigitC c = true := by
    intro c hc
    rw [hPdef, padLeft] at hc
    rcases List.mem_append.mp hc with hc | hc
    · rw [List.eq_of_mem_replicate hc]; decide
    · exact hdigB c hc
  have hPne : P ≠ [] := by
    intro hnil
    rw [hnil] at hlenP
    simp at hlenP
    omega
  have hvalP : valOfDigits P = B := by
    rw [hPdef, padLeft, valOfDigits_replicate_zero, hvalB]
  have hparseP : parseDigits? P = some B := by
    rw [parseDigits_of_digits P hPne hdigP, hvalP]
  have hparseA : parseDigits? (natDigits A) = some A := parseDigits_natDigits A
  have hdigdotA : ∀ c ∈ natDigits A, (c != '.') = true :=
    fun c hc => isDigitC_ne_dot (hdigA c hc)
  obtain ⟨hsplitT, hsplitD⟩ := takeWhile_dot_append (natDigits A) P hdigdotA
  have harith : ((A : Rat)) + (B : Rat) / 10 ^ k = (M : Rat) / 10 ^ k := by
    have hM : 10 ^ k * A + B = M := Nat.div_add_mod M (10 ^ k)
    have hMR : ((10 : Rat)) ^ k * (A : Rat) + (B : Rat) = (M : Rat) := by
      exact_mod_cast congrArg (fun z : Nat => (z : Rat)) hM
    have h10 : ((10 : Rat)) ^ k ≠ 0 := by positivity
    field_simp
    linarith [hMR]
  have hfrac : pyFloatOfChars?.parseFracChars? (natDigits A ++ '.' :: P) =
      some ((M : Rat) / 10 ^ k) := by
    simp only [pyFloatOfChars?.parseFracChars?, hsplitT, hsplitD, hparseA, hparseP, hlenP]
    rw [harith]
  by_cases hmneg : m < 0
  · have hrdneg : ratDigits q = '-' :: (natDigits A ++ '.' :: P) := by
      rw [hrd, if_pos hmneg]
      rfl
    rw [hrdneg, pyFloatOfChars?, if_pos rfl, hfrac]
    simp only [Option.map_some']
    congr 1
    have hMm : (M : Int) = -m := by omega
    have hMR : (M : Rat) = -(m : Rat) := by
      exact_mod_cast congrArg (fun z : Int => (z : Rat)) hMm
    rw [hMR, hvalq]
    field_simp
  · have hrdpos : ratDigits q = natDigits A ++ '.' :: P := by
      rw [hrd, if_neg hmneg]
      rfl
    cases hlA : natDigits A with
    | nil => exact absurd hlA hneA
    | cons c cs =>
      rw [hlA] at hdigA
      have hc := hdigA c (List.mem_cons_self c cs)
      obtain ⟨-, hc1, hc2⟩ := isDigitC_ne hc
      rw [hrdpos, hlA, List.cons_append, pyFloatOfChars?, if_neg hc1, if_neg hc2,
        ← List.cons_append, ← hlA, hfrac]
      congr 1
      have hMm : (M : Int) = m := by omega
      have hMR : (M : Rat) = (m : Rat) := by
        exact_mod_cast congrArg (fun z : Int => (z : Rat)) hMm
      rw [hMR, hvalq]
      field_simp

theorem ratDigits_ne_nil (q : Rat) (h : (decExp q.den).isSome = true) :
    ratDigits q ≠ [] := by
  obtain ⟨k0, hk0⟩ := Option.isSome_iff_exists.mp h
  rw [ratDigits, hk0]
  intro hnil
  simp at hnil

theorem String_mk_ne_empty {l : List Char} (h : l ≠ []) : String.mk l ≠ "" := by
  intro hc
  exact h (congrArg String.data hc)

theorem parseRow_rowOf (e : EnrichedTx) (hsafe : roundTripSafe e = true) :
    parseRow? (rowOf e) = some e := by
  obtain ⟨base, cat, brand, rating, mtch⟩ := e
  obtain ⟨tid, date, pid, pname, Q, UP, cid, region⟩ := base
  simp only [roundTripSafe, Bool.and_eq_true, bne_iff_ne, ne_eq] at hsafe
  obtain ⟨⟨⟨hcat, hbrand⟩, hup⟩, hrat⟩ := hsafe
  have hQ : pyIntOfChars? (String.mk (intDigits Q)).toList = some Q :=
    pyInt_intDigits Q
  have hUP : pyFloatOfChars? (String.mk (ratDigits UP)).toList = some UP :=
    pyFloat_ratDigits UP hup
  simp only [rowOf, parseRow?, hQ, hUP]
  cases rating with
  | none =>
    simp only [if_pos rfl]
    cases mtch with
    | true =>
      simp only [if_pos rfl]
      cases cat with
      | none =>
        cases brand with
        | none => simp
        | some sb =>
          have hsb : ¬(sb = "") := fun hh => hbrand (by rw [hh])
          simp [hsb]
      | some sc =>
        have hsc : ¬(sc = "") := fun hh => hcat (by rw [hh])
        cases brand with
        | none => simp [hsc]
        | some sb =>
          have hsb : ¬(sb = "") := fun hh => hbrand (by rw [hh])
          simp [hsc, hsb]
    | false =>
      have hTF : ¬(("False" : String) = "True") := by decide
      simp only [Bool.false_eq_true, if_false, if_neg hTF, if_pos rfl]
      cases cat with
      | none =>
        cases brand with
        | none => simp
        | some sb =>
          have hsb : ¬(sb = "") := fun hh => hbrand (by rw [hh])
          simp [hsb]
      | some sc =>
        have hsc : ¬(sc = "") := fun hh => hcat (by rw [hh])
        cases brand with
        | none => simp [hsc]
        | some sb =>
          have hsb : ¬(sb = "") := fun hh => hbrand (by rw [hh])
          simp [hsc, hsb]
  | some r =>
    have hr : (decExp r.den).isSome = true := hrat
    have hrne : ¬(String.mk (ratDigits r) = "") :=
      String_mk_ne_empty (ratDigits_ne_nil r hr)
    have hparser : pyFloatOfChars? (String.mk (ratDigits r)).toList = some r :=
      pyFloat_ratDigits r hr
    simp only [if_neg hrne, hparser, Option.map_some']
    cases mtch with
    | true =>
      simp only [if_pos rfl]
      cases cat with
      | none =>
        cases brand with
        | none => simp
        | some sb =>
          have hsb : ¬(sb = "") := fun hh => hbrand (by rw [hh])
          simp [hsb]
      | some sc =>
        have hsc : ¬(sc = "") := fun hh => hcat (by rw [hh])
        cases brand with
        | none => simp [hsc]
        | some sb =>
          have hsb : ¬(sb = "") := fun hh => hbrand (by rw [hh])
          simp [hsc, hsb]
    | false =>
      have hTF : ¬(("False" : String) = "True") := by decide
      simp only [Bool.false_eq_true, if_false, if_neg hTF, if_pos rfl]
      cases cat with
      | none =>
        cases brand with
        | none => simp
        | some sb =>
          have hsb : ¬(sb = "") := fun hh => hbrand (by rw [hh])
          simp [hsb]
      | some sc =>
        have hsc : ¬(sc = "") := fun hh => hcat (by rw [hh])
        cases brand with
        | none => simp [hsc]
        | some sb =>
          have hsb : ¬(sb = "") := fun hh => hbrand (by rw [hh])
          simp [hsc, hsb]

/-! ### Claim theorems -/

/-- C1: for a transaction whose `ProductID` is the prefix `'P'` followed
by a decimal numeral of value `d`, `enrich_sales_data` looks up the
catalog key `d - 100`; on a hit the enriched record copies the entry's
category, brand and rating with `API_Match = true`, on a miss all three
`API_` fields are null with `API_Match = false`.  In particular
`"P101"` against a catalog with ID 1 matches that entry, and `"P999"`
with no catalog ID 899 yields the no-match record. -/
theorem c1_enrichment_key_transform :
    (∀ (m : Int → Option CatalogEntry) (tx : Transaction) (ds : List Char),
      tx.ProductID.toList = 'P' :: ds → ds ≠ [] → (∀ c ∈ ds, isDigitC c = true) →
      enrichOne m tx =
        (match m ((valOfDigits ds : Int) - 100) with
         | some e => ⟨tx, e.category, e.brand, e.rating, true⟩
         | none => noMatchRecord tx))
    ∧ (∀ (m : Int → Option CatalogEntry) (tx : Transaction) (e : CatalogEntry),
        tx.ProductID = "P101" → m 1 = some e →
        enrichOne m tx = ⟨tx, e.category, e.brand, e.rating, true⟩)
    ∧ (∀ (m : Int → Option CatalogEntry) (tx : Transaction),
        tx.ProductID = "P999" → m 899 = none → enrichOne m tx = noMatchRecord tx) := by
  have hmain : ∀ (m : Int → Option CatalogEntry) (tx : Transaction) (ds : List Char),
      tx.ProductID.toList = 'P' :: ds → ds ≠ [] → (∀ c ∈ ds, isDigitC c = true) →
      enrichOne m tx =
        (match m ((valOfDigits ds : Int) - 100) with
         | some e => ⟨tx, e.category, e.brand, e.rating, true⟩
         | none => noMatchRecord tx) := by
    intro m tx ds hpid hne hdig
    have hex : extractApiId? tx.ProductID = some ((valOfDigits ds : Int) - 100) := by
      rw [extractApiId?, hpid, stripChar_P_digits ds hdig, pyIntOfChars_digits ds hne hdig]
      rfl
    rw [enrichOne, hex]
  refine ⟨hmain, ?_, ?_⟩
  · intro m tx e hp hm
    have h1 := hmain m tx ['1', '0', '1'] (by rw [hp]; rfl) (by decide) (by decide)
    have h2 : ((valOfDigits ['1', '0', '1'] : Int) - 100) = 1 := by decide
    rw [h1, h2, hm]
  · intro m tx hp hm
    have h1 := hmain m tx ['9', '9', '9'] (by rw [hp]; rfl) (by decide) (by decide)
    have h2 : ((valOfDigits ['9', '9', '9'] : Int) - 100) = 899 := by decide
    rw [h1, h2, hm]

/-- Witness for C1 at concrete inputs: `"P101"` with a one-entry catalog
at ID 1 matches it; `"P999"` with an empty catalog yields no-match. -/
theorem c1_enrichment_key_transform_witness :
    enrichOne (fun k => if k = 1 then some ⟨some "beauty", some "Essence", some 2⟩ else none)
        ⟨"T1", "2024-01-01", "P101", "W", 1, 2, "C1", "N"⟩ =
      ⟨⟨"T1", "2024-01-01", "P101", "W", 1, 2, "C1", "N"⟩,
        some "beauty", some "Essence", some 2, true⟩
    ∧ enrichOne (fun _ => none) ⟨"T1", "2024-01-01", "P999", "W", 1, 2, "C1", "N"⟩ =
      noMatchRecord ⟨"T1", "2024-01-01", "P999", "W", 1, 2, "C1", "N"⟩ :=
  ⟨c1_enrichment_key_transform.2.1 _ _ ⟨some "beauty", some "Essence", some 2⟩ rfl (by decide),
   c1_enrichment_key_transform.2.2 _ _ rfl rfl⟩

/-- C2: `validate_and_filter` accepts a parsed transaction into the
valid set iff all eight required fields are present and non-empty,
`Quantity > 0`, `UnitPrice > 0`, and the three ID fields carry the
prefixes `"T"`, `"P"`, `"C"`; every rejected transaction adds exactly
one to `invalid_count` and is absent from the output; any transaction
with `Quantity = 0` or `UnitPrice = 0` is rejected; every accepted
transaction gets `Amount = Quantity * UnitPrice` attached. -/
theorem c2_validity_invariant : ∀ txs : List Transaction,
    (validateAll txs).1 = (txs.filter isValidTx).map mkValid
    ∧ (validateAll txs).2 = txs.countP (fun tx => !isValidTx tx)
    ∧ (validateAll txs).1.length + (validateAll txs).2 = txs.length
    ∧ (∀ tx : Transaction, isValidTx tx = true ↔
        (tx.TransactionID ≠ "" ∧ tx.Date ≠ "" ∧ tx.ProductID ≠ "" ∧ tx.ProductName ≠ "" ∧
         tx.CustomerID ≠ "" ∧ tx.Region ≠ "" ∧ 0 < tx.Quantity ∧ 0 < tx.UnitPrice ∧
         startsWithChar tx.TransactionID 'T' = true ∧ startsWithChar tx.ProductID 'P' = true ∧
         startsWithChar tx.CustomerID 'C' = true))
    ∧ (∀ tx : Transaction, tx.Quantity = 0 ∨ tx.UnitPrice = 0 → isValidTx tx = false)
    ∧ (∀ v ∈ (validateAll txs).1, v.Amount = (v.base.Quantity : Rat) * v.base.UnitPrice) := by
  intro txs
  refine ⟨validateAll_fst txs, validateAll_snd txs, validateAll_len txs, isValidTx_iff, ?_, ?_⟩
  · intro tx h
    cases hv : isValidTx tx with
    | false => rfl
    | true =>
      obtain ⟨-, -, -, -, -, -, hq, hup, -⟩ := (isValidTx_iff tx).mp hv
      rcases h with h | h
      · rw [h] at hq; exact absurd hq (lt_irrefl 0)
      · rw [h] at hup; exact absurd hup (lt_irrefl 0)
  · intro v hv
    rw [validateAll_fst txs] at hv
    obtain ⟨tx, -, htx⟩ := List.mem_map.mp hv
    rw [← htx]
    rfl

/-- Witness for C2 at concrete inputs: a zero-quantity transaction is
rejected, and a well-formed one is accepted. -/
theorem c2_validity_invariant_witness :
    isValidTx ⟨"T1", "2024-01-01", "P101", "Widget", 0, 10, "C1", "North"⟩ = false
    ∧ isValidTx ⟨"T1", "2024-01-01", "P101", "Widget", 5, 10, "C1", "North"⟩ = true :=
  ⟨(c2_validity_invariant []).2.2.2.2.1 _ (Or.inl rfl),
   ((c2_validity_invariant []).2.2.2.1 _).mpr (by decide)⟩

/-- Counterexample to C3 as stated: the region string `""` is matched by
no valid transaction (validity forces a non-empty `Region`), yet
filtering by it leaves the valid set untouched (Python's `if region:`
treats `""` as no filter), so the final set is non-empty and
`filtered_by_region = 0`, not the number of valid transactions. -/
theorem c3_sequential_filters_counterexample :
    (∀ v ∈ (validateAll [⟨"T1", "2024-01-01", "P101", "Widget", 5, 10, "C1", "North"⟩]).1,
        v.base.Region ≠ "")
    ∧ ¬(((validate_and_filter [⟨"T1", "2024-01-01", "P101", "Widget", 5, 10, "C1", "North"⟩]
            (some "") none none).1 = [])
        ∧ (validate_and_filter [⟨"T1", "2024-01-01", "P101", "Widget", 5, 10, "C1", "North"⟩]
            (some "") none none).2.2.filtered_by_region =
          (validateAll [⟨"T1", "2024-01-01", "P101", "Widget", 5, 10, "C1", "North"⟩]).1.length) := by
  constructor
  · decide
  · intro h
    exact absurd h.1 (by decide)

/-- C3 (amended): the three optional filters are applied sequentially
after validation — region exact-match, then `Amount ≥ min_amount`, then
`Amount ≤ max_amount`, each on the set remaining from the previous step;
`filter_summary` reports the count removed by the region pass, the sum
removed by the two amount passes, and the final size; and for every
input, filtering by a *non-empty* region string matched by no valid
transaction yields an empty final set with `filtered_by_region` equal to
the number of valid transactions (the empty region string is excluded:
Python's `if region:` skips the pass for it). -/
theorem c3_sequential_filters :
    ∀ (txs : List Transaction) (region : Option String) (mn mx : Option Rat),
      (validate_and_filter txs region mn mx).1 =
        maxPass mx (minPass mn (regionPass region (validateAll txs).1))
      ∧ (validate_and_filter txs region mn mx).2.2.filtered_by_region =
          (validateAll txs).1.length - (regionPass region (validateAll txs).1).length
      ∧ (validate_and_filter txs region mn mx).2.2.filtered_by_amount =
          ((regionPass region (validateAll txs).1).length -
            (minPass mn (regionPass region (validateAll txs).1)).length) +
          ((minPass mn (regionPass region (validateAll txs).1)).length -
            (maxPass mx (minPass mn (regionPass region (validateAll txs).1))).length)
      ∧ (validate_and_filter txs region mn mx).2.2.final_count =
          (validate_and_filter txs region mn mx).1.length
      ∧ (∀ r, region = some r → r ≠ "" →
          (∀ v ∈ (validateAll txs).1, v.base.Region ≠ r) →
          (validate_and_filter txs region mn mx).1 = []
          ∧ (validate_and_filter txs region mn mx).2.2.filtered_by_region =
              (validateAll txs).1.length) := by
  intro txs region mn mx
  refine ⟨rfl, rfl, rfl, rfl, ?_⟩
  intro r hreg hr hnone
  subst hreg
  have hempty : regionPass (some r) (validateAll txs).1 = [] := by
    rw [regionPass, if_neg hr]
    rw [List.filter_eq_nil_iff]
    intro v hv
    simpa using hnone v hv
  have h1 : minPass mn (regionPass (some r) (validateAll txs).1) = [] := by
    rw [hempty]; cases mn <;> rfl
  have h2 : maxPass mx (minPass mn (regionPass (some r) (validateAll txs).1)) = [] := by
    rw [h1]; cases mx <;> rfl
  constructor
  · show maxPass mx (minPass mn (regionPass (some r) (validateAll txs).1)) = []
    exact h2
  · show (validateAll txs).1.length - (regionPass (some r) (validateAll txs).1).length =
      (validateAll txs).1.length
    rw [hempty]
    simp

/-- Witness for C3 (amended) at a concrete input: filtering one valid
North-region transaction by the unmatched region `"South"` empties the
result and counts it as removed by the region pass. -/
theorem c3_sequential_filters_witness :
    (validate_and_filter [⟨"T1", "2024-01-01", "P101", "Widget", 5, 10, "C1", "North"⟩]
        (some "South") none none).1 = []
    ∧ (validate_and_filter [⟨"T1", "2024-01-01", "P101", "Widget", 5, 10, "C1", "North"⟩]
        (some "South") none none).2.2.filtered_by_region =
      (validateAll [⟨"T1", "2024-01-01", "P101", "Widget", 5, 10, "C1", "North"⟩]).1.length :=
  (c3_sequential_filters [⟨"T1", "2024-01-01", "P101", "Widget", 5, 10, "C1", "North"⟩]
      (some "South") none none).2.2.2.2 "South" rfl (by decide) (by decide)

/-- C4: for every non-empty transaction list, `find_peak_sales_day`
returns a `(date, revenue, transaction_count)` entry of the per-date
aggregation whose revenue is maximal; revenue and count are exactly the
aggregates of the returned date; and among revenue ties the returned
date is the first encountered in input order (the aggregation dict is in
first-encounter date order and Python's `max` keeps the first maximum). -/
theorem c4_peak_sales_day : ∀ txs : List Transaction, txs ≠ [] →
    ∃ d r c pre post,
      find_peak_sales_day txs = some (d, r, c)
      ∧ dailyTotals txs = pre ++ (d, r, c) :: post
      ∧ (∀ e ∈ dailyTotals txs, e.2.1 ≤ r)
      ∧ (∀ e ∈ pre, e.2.1 < r)
      ∧ r = ((txs.filter (fun t => decide (t.Date = d))).map pyAmount).sum
      ∧ c = (txs.filter (fun t => decide (t.Date = d))).length
      ∧ (dailyTotals txs).map Prod.fst = firstKeys (fun t => t.Date) txs := by
  intro txs h
  have hne : dailyTotals txs ≠ [] := by
    rw [dailyTotals]
    exact aggregateBy_ne_nil (fun tx => tx.Date) (fun tx => (pyAmount tx, (1 : Nat))) h
  cases hdt : dailyTotals txs with
  | nil => exact absurd hdt hne
  | cons x rest =>
    obtain ⟨pre, post, hdec, hub, hlt⟩ := pickMax_spec rest x
    rcases hpm : pickMax x rest with ⟨d, r, c⟩
    rw [hpm] at hdec hub hlt
    have hmem : (d, r, c) ∈ dailyTotals txs := by
      rw [hdt, hdec]
      simp
    have hnodup : ((dailyTotals txs).map Prod.fst).Nodup := by
      rw [dailyTotals]
      exact nodup_fst_aggregateBy (fun tx => tx.Date) (fun tx => (pyAmount tx, (1 : Nat))) txs
    have hlook : lookupA (dailyTotals txs) d = some (r, c) :=
      lookupA_eq_of_mem (dailyTotals txs) hnodup hmem
    rw [dailyTotals,
      lookupA_aggregateBy (fun tx => tx.Date) (fun tx => (pyAmount tx, (1 : Nat))) txs d]
      at hlook
    have hval : (r, c) =
        ((txs.filter (fun t => decide (t.Date = d))).map
          (fun tx => (pyAmount tx, (1 : Nat)))).sum := by
      by_cases hcase : (txs.filter (fun t => decide (t.Date = d))).isEmpty
      · rw [if_pos hcase] at hlook
        exact absurd hlook (by simp)
      · rw [if_neg hcase] at hlook
        exact (Option.some.injEq .. ▸ hlook).symm
    rw [sum_map_pair] at hval
    have hr : r = ((txs.filter (fun t => decide (t.Date = d))).map pyAmount).sum :=
      congrArg Prod.fst hval
    have hc : c = (txs.filter (fun t => decide (t.Date = d))).length := by
      have := congrArg Prod.snd hval
      simpa [sum_map_one] using this
    refine ⟨d, r, c, pre, post, ?_, ?_, ?_, ?_, hr, hc, ?_⟩
    · rw [find_peak_sales_day, hdt]
      exact congrArg some hpm
    · exact hdec
    · intro e he
      exact hub e he
    · exact hlt
    · rw [← hdt, dailyTotals]
      exact map_fst_aggregateBy (fun tx => tx.Date) (fun tx => (pyAmount tx, (1 : Nat))) txs

/-- Witness for C4 at a concrete input: two dates tie on revenue and the
first-encountered date wins; its aggregates come from its own
transactions. -/
theorem c4_peak_sales_day_witness :
    ∃ d r c pre post,
      find_peak_sales_day c4txs = some (d, r, c)
      ∧ dailyTotals c4txs = pre ++ (d, r, c) :: post
      ∧ (∀ e ∈ dailyTotals c4txs, e.2.1 ≤ r)
      ∧ (∀ e ∈ pre, e.2.1 < r)
      ∧ r = ((c4txs.filter (fun t => decide (t.Date = d))).map pyAmount).sum
      ∧ c = (c4txs.filter (fun t => decide (t.Date = d))).length
      ∧ (dailyTotals c4txs).map Prod.fst = firstKeys (fun t => t.Date) c4txs :=
  c4_peak_sales_day c4txs (by decide)

unseal Rat.mul Rat.add Rat.sub Rat.inv in
/-- Counterexample to C5 as stated: an enriched record whose
`API_Category` is the *empty string* (a matched catalog entry can carry
`category = ""`) serializes exactly like a null, so re-parsing returns
`API_Category = null` and the record set is not reproduced. -/
theorem c5_roundtrip_counterexample :
    parseRows? (save_enriched_data
      [⟨⟨"T1", "2024-01-01", "P101", "Widget", 1, 1, "C1", "North"⟩,
        some "", none, none, true⟩]) ≠
    some [⟨⟨"T1", "2024-01-01", "P101", "Widget", 1, 1, "C1", "North"⟩,
        some "", none, none, true⟩] := by decide

/-- C5 (amended): writing enriched records with `save_enriched_data`
(12 pipe-separated cells, nulls as empty string, `API_Match` as its
boolean's text form) and re-parsing the written rows reproduces the
record set field for field, for every list of enriched records in which
each nullable string field is null or non-empty (an empty-string
category or brand is indistinguishable from null in the file) and the
numeric fields are decimally representable (as every value Python's
float `str` prints in decimal form is). -/
theorem c5_roundtrip (es : List EnrichedTx) (hsafe : ∀ e ∈ es, roundTripSafe e = true) :
    parseRows? (save_enriched_data es) = some es := by
  induction es with
  | nil => rfl
  | cons e rest ih =>
    have h1 := parseRow_rowOf e (hsafe e (List.mem_cons_self e rest))
    have h2 := ih (fun x hx => hsafe x (List.mem_cons_of_mem e hx))
    rw [save_enriched_data, List.map_cons, parseRows?, h1,
      show List.map rowOf rest = save_enriched_data rest from rfl, h2]

unseal Rat.mul Rat.add Rat.sub Rat.inv in
/-- Witness for C5 (amended) at a concrete input: a fully-populated
record with fractional prices round-trips exactly. -/
theorem c5_roundtrip_witness :
    parseRows? (save_enriched_data
      [⟨⟨"T1", "2024-01-01", "P101", "Widget", 5, 21 / 2, "C1", "North"⟩,
        some "beauty", some "Essence", some (9 / 2), true⟩,
       ⟨⟨"T2", "2024-01-02", "PXY", "Gadget", -3, 4, "C2", "South"⟩,
        none, none, none, false⟩]) =
    some [⟨⟨"T1", "2024-01-01", "P101", "Widget", 5, 21 / 2, "C1", "North"⟩,
        some "beauty", some "Essence", some (9 / 2), true⟩,
       ⟨⟨"T2", "2024-01-02", "PXY", "Gadget", -3, 4, "C2", "South"⟩,
        none, none, none, false⟩] :=
  c5_roundtrip _ (by decide)

/-! ### Region percentages (C6) -/

/-- C6: whenever total revenue is strictly positive, the rounded
percentages of `region_wise_sales` sum to 100 within the rounding
tolerance (half a hundredth per region); when total revenue is 0 every
percentage is 0. -/
theorem c6_region_percentages_sum : ∀ txs : List Transaction,
    (0 < calculate_total_revenue txs →
      |((region_wise_sales txs).map (fun e => e.2.2.2)).sum - 100|
        ≤ ((region_wise_sales txs).length : Rat) * (1 / 200))
    ∧ (calculate_total_revenue txs = 0 →
        ∀ e ∈ region_wise_sales txs, e.2.2.2 = 0) := by
  intro txs
  set stats := aggregateBy (fun tx => tx.Region) (fun tx => (pyAmount tx, (1 : Nat))) txs
    with hstats
  set total := calculate_total_revenue txs with htot
  have hA : region_wise_sales txs =
      List.insertionSort (fun a b => b.2.1 ≤ a.2.1)
        (stats.map (fun e => (e.1, e.2.1, e.2.2, pctOf total e.2.1))) :=
    region_wise_sales_eq txs
  have hperm : List.Perm (region_wise_sales txs)
      (stats.map (fun e => (e.1, e.2.1, e.2.2, pctOf total e.2.1))) := by
    rw [hA]
    exact List.perm_insertionSort _ _
  have hsum : ((region_wise_sales txs).map (fun e => e.2.2.2)).sum =
      (stats.map (fun e => pctOf total e.2.1)).sum := by
    rw [(hperm.map (fun e => e.2.2.2)).sum_eq, List.map_map]
    rfl
  have hlen : (region_wise_sales txs).length = stats.length := by
    rw [hperm.length_eq, List.length_map]
  constructor
  · intro hpos
    have htne : total ≠ 0 := ne_of_gt hpos
    have hpct : (stats.map (fun e => pctOf total e.2.1)).sum =
        ((stats.map (fun e => e.2.1 / total * 100)).map round2).sum := by
      simp only [List.map_map]
      congr 1
      apply List.map_congr_left
      intro e he
      show pctOf total e.2.1 = round2 (e.2.1 / total * 100)
      rw [pctOf, if_pos hpos]
    have hexact : (stats.map (fun e => e.2.1 / total * 100)).sum = 100 := by
      have h1 : (stats.map (fun e => e.2.1 / total * 100)).sum =
          (stats.map (fun e => e.2.1 / total)).sum * 100 := by
        simpa using List.sum_map_mul_right stats (fun e => e.2.1 / total) 100
      have h2 : (stats.map (fun e => e.2.1 / total)).sum =
          (stats.map (fun e => e.2.1)).sum * total⁻¹ := by
        simp only [div_eq_mul_inv]
        simpa using List.sum_map_mul_right stats (fun e => e.2.1) total⁻¹
      rw [h1, h2, region_sales_total txs, ← calculate_total_revenue_eq_sum, ← htot]
      field_simp
    have hbound := sum_round2_bound (stats.map (fun e => e.2.1 / total * 100))
    rw [hexact] at hbound
    rw [hsum, hpct, hlen]
    simpa using hbound
  · intro hzero e he
    have hmem : e ∈ stats.map (fun e => (e.1, e.2.1, e.2.2, pctOf total e.2.1)) :=
      hperm.mem_iff.mp he
    obtain ⟨e', -, he'⟩ := List.mem_map.mp hmem
    rw [← he']
    show pctOf total e'.2.1 = 0
    rw [pctOf, hzero]
    norm_num
    exact round2_zero

unseal Rat.mul Rat.add Rat.sub Rat.inv in
/-- Witness for C6 at a concrete input: two regions with revenues 50 and
25; the two rounded percentages sum to 100 within 2/200. -/
theorem c6_region_percentages_sum_witness :
    |((region_wise_sales
        [⟨"T1", "2024-01-01", "P101", "W", 5, 10, "C1", "North"⟩,
         ⟨"T2", "2024-01-01", "P102", "W", 5, 5, "C2", "South"⟩]).map
          (fun e => e.2.2.2)).sum - 100|
      ≤ ((region_wise_sales
        [⟨"T1", "2024-01-01", "P101", "W", 5, 10, "C1", "North"⟩,
         ⟨"T2", "2024-01-01", "P102", "W", 5, 5, "C2", "South"⟩]).length : Rat) * (1 / 200) :=
  (c6_region_percentages_sum _).1 (by decide)

/-! ### Top-selling products (C7) -/

/-- C7: `top_selling_products txs n` returns at most `n` tuples, in
non-increasing order of `total_quantity`; the stable sort preserves each
quantity class in aggregation (= first-encounter) order; and each
returned tuple carries the full per-`ProductName` aggregation of
quantity and revenue over the input. -/
theorem c7_top_products : ∀ (txs : List Transaction) (n : Nat),
    (top_selling_products txs n).length ≤ n
    ∧ List.Pairwise (fun a b => b.2.1 ≤ a.2.1) (top_selling_products txs n)
    ∧ (∀ k : Int,
        (List.insertionSort (fun a b => b.2.1 ≤ a.2.1) (productList txs)).filter
            (fun e => decide (e.2.1 = k)) =
          (productList txs).filter (fun e => decide (e.2.1 = k)))
    ∧ ((productList txs).map Prod.fst = firstKeys (fun tx => tx.ProductName) txs)
    ∧ (∀ e ∈ top_selling_products txs n,
        e.2.1 = ((txs.filter (fun t => decide (t.ProductName = e.1))).map
          (fun t => t.Quantity)).sum
        ∧ e.2.2 = ((txs.filter (fun t => decide (t.ProductName = e.1))).map pyAmount).sum) := by
  intro txs n
  refine ⟨?_, ?_, ?_, ?_, ?_⟩
  · rw [top_selling_products]
    rw [List.length_take]
    exact min_le_left n _
  · have hsorted : List.Sorted (fun a b : String × Int × Rat => b.2.1 ≤ a.2.1)
        (List.insertionSort (fun a b => b.2.1 ≤ a.2.1) (productList txs)) :=
      @List.sorted_insertionSort (String × Int × Rat) (fun a b => b.2.1 ≤ a.2.1) _
        ⟨fun a b => le_total b.2.1 a.2.1⟩ ⟨fun a b c hab hbc => le_trans hbc hab⟩
        (productList txs)
    rw [top_selling_products]
    exact List.Pairwise.sublist (List.take_sublist n _) hsorted
  · intro k
    apply filter_insertionSort
    intro x y hx hr
    have hxk : x.2.1 = k := of_decide_eq_true hx
    have hlt : x.2.1 < y.2.1 := not_le.mp hr
    exact decide_eq_false (by rw [← hxk]; exact (ne_of_gt hlt))
  · rw [productList]
    exact map_fst_aggregateBy (fun tx => tx.ProductName)
      (fun tx => (tx.Quantity, pyAmount tx)) txs
  · intro e he
    rw [top_selling_products] at he
    have h1 : e ∈ List.insertionSort (fun a b => b.2.1 ≤ a.2.1) (productList txs) :=
      (List.take_sublist n _).subset he
    have h2 : e ∈ productList txs :=
      (List.perm_insertionSort (fun a b => b.2.1 ≤ a.2.1) (productList txs)).subset h1
    have hnodup : ((productList txs).map Prod.fst).Nodup := by
      rw [productList]
      exact nodup_fst_aggregateBy (fun tx => tx.ProductName)
        (fun tx => (tx.Quantity, pyAmount tx)) txs
    rcases e with ⟨name, q, rv⟩
    have hlook : lookupA (productList txs) name = some (q, rv) :=
      lookupA_eq_of_mem (productList txs) hnodup h2
    rw [productList, lookupA_aggregateBy (fun tx => tx.ProductName)
      (fun tx => (tx.Quantity, pyAmount tx)) txs name] at hlook
    have hval : (q, rv) =
        ((txs.filter (fun t => decide (t.ProductName = name))).map
          (fun tx => (tx.Quantity, pyAmount tx))).sum := by
      by_cases hcase : (txs.filter (fun t => decide (t.ProductName = name))).isEmpty
      · rw [if_pos hcase] at hlook
        exact absurd hlook (by simp)
      · rw [if_neg hcase] at hlook
        exact (Option.some.injEq .. ▸ hlook).symm
    rw [sum_map_pair] at hval
    exact ⟨congrArg Prod.fst hval, congrArg Prod.snd hval⟩

unseal Rat.mul Rat.add Rat.sub Rat.inv in
/-- Witness for C7 at a concrete input: the single returned tuple
aggregates quantity 6 and revenue 60 over both transactions. -/
theorem c7_top_products_witness :
    ("W", (6 : Int), (60 : Rat)).2.1 =
      ((c7txs.filter (fun t => decide (t.ProductName = ("W", (6 : Int), (60 : Rat)).1))).map
        (fun t => t.Quantity)).sum
    ∧ ("W", (6 : Int), (60 : Rat)).2.2 =
      ((c7txs.filter (fun t => decide (t.ProductName = ("W", (6 : Int), (60 : Rat)).1))).map
        pyAmount).sum :=
  (c7_top_products c7txs 1).2.2.2.2 ("W", 6, 60) (by decide)

/-- C8: a transaction whose `ProductID` yields no parseable numeral
produces the all-null `API_Match = false` record, identical to a
no-match, and the rest of the batch is processed unchanged around it —
the function never fails. -/
theorem c8_malformed_product_id :
    ∀ (m : Int → Option CatalogEntry) (pre post : List Transaction) (tx : Transaction),
      extractApiId? tx.ProductID = none →
      enrich_sales_data (pre ++ tx :: post) m =
        enrich_sales_data pre m ++ noMatchRecord tx :: enrich_sales_data post m := by
  intro m pre post tx hex
  induction pre with
  | nil =>
    simp only [List.nil_append, enrich_sales_data]
    rw [enrichOne, hex]
  | cons p ps ih =>
    rw [List.cons_append,
      show enrich_sales_data (p :: (ps ++ tx :: post)) m =
        enrichOne m p :: enrich_sales_data (ps ++ tx :: post) m from rfl,
      ih]
    rfl

/-- Witness for C8 at a concrete input: a malformed `ProductID` `"PXY"`
in the middle of a batch degrades to the no-match record and the
neighbours are still enriched. -/
theorem c8_malformed_product_id_witness :
    enrich_sales_data
        [⟨"T1", "2024-01-01", "P101", "W", 1, 2, "C1", "N"⟩,
         ⟨"T2", "2024-01-01", "PXY", "W", 1, 2, "C2", "N"⟩]
        (fun _ => none) =
      enrich_sales_data [⟨"T1", "2024-01-01", "P101", "W", 1, 2, "C1", "N"⟩] (fun _ => none) ++
        noMatchRecord ⟨"T2", "2024-01-01", "PXY", "W", 1, 2, "C2", "N"⟩ ::
          enrich_sales_data [] (fun _ => none) :=
  c8_malformed_product_id (fun _ => none)
    [⟨"T1", "2024-01-01", "P101", "W", 1, 2, "C1", "N"⟩] []
    ⟨"T2", "2024-01-01", "PXY", "W", 1, 2, "C2", "N"⟩ (by decide)

/-- C9: `enrich_sales_data` returns exactly one enriched record per
input transaction, in input order (position by position), and each
enriched record agrees with its source transaction on all original
fields. -/
theorem c9_enrich_bijection :
    ∀ (txs : List Transaction) (m : Int → Option CatalogEntry),
      (enrich_sales_data txs m).length = txs.length
      ∧ (∀ i : Nat, ((enrich_sales_data txs m)[i]?).map EnrichedTx.base = txs[i]?) := by
  intro txs m
  induction txs with
  | nil => exact ⟨rfl, fun i => by cases i <;> rfl⟩
  | cons tx rest ih =>
    refine ⟨?_, ?_⟩
    · simp only [enrich_sales_data, List.length_cons, ih.1]
    · intro i
      cases i with
      | zero =>
        rw [show enrich_sales_data (tx :: rest) m =
          enrichOne m tx :: enrich_sales_data rest m from rfl]
        simp [enrichOne_base m tx]
      | succ n =>
        rw [show enrich_sales_data (tx :: rest) m =
          enrichOne m tx :: enrich_sales_data rest m from rfl]
        simp only [List.getElem?_cons_succ]
        exact ih.2 n

/-- C10: `find_peak_sales_day` is partial at the empty input: in the
total embedding its result is `none` exactly when the transaction list
is empty (Python's `max` over the empty per-date dict raises
`ValueError`), and it returns a value for every non-empty input. -/
theorem c10_peak_day_none_iff_empty : ∀ txs : List Transaction,
    find_peak_sales_day txs = none ↔ txs = [] := by
  intro txs
  constructor
  · intro h
    by_contra hne
    have hagg : dailyTotals txs ≠ [] := by
      rw [dailyTotals]
      exact aggregateBy_ne_nil (fun tx => tx.Date) (fun tx => (pyAmount tx, (1 : Nat))) hne
    rw [find_peak_sales_day] at h
    cases hdt : dailyTotals txs with
    | nil => exact hagg hdt
    | cons x rest =>
      rw [hdt] at h
      exact Option.some_ne_none _ h
  · intro h
    subst h
    rfl
